import Mathlib

/-!
Verification development for the SPP2377 performance-modeling workshop
runtime: a shallow embedding of the reference-counted segmented NUMA
pointer (`VamPointer` / `SegPtr`), the placement oracle, the thread
manager's CPU pinning, the thread-group start barrier, and the query
driver's reference checksum, together with theorems settling the
specification's claims about them.

Machine integers are modelled as `Nat`/`Int`; the `uint32_t` reference
counter wraps modulo `2^32` where the code's `fetch_sub` can underflow.
Addresses are modelled as element indices (`Nat`); a null pointer is
`Option.none`.
-/

namespace Spec2Proof

/-! ### VamPointer (src/code/utils/vmalloc/VamPointer.hpp)

A `VamPointer<base_t, segment_size_bytes>` holds an `AllocationInfo*`,
a `base_t* start` and a byte extent `size_bytes`.  The two template
parameters are modelled as the fields `sizeofBase` (`sizeof(base_t)`)
and `segBytes` (`segment_size_bytes`).  `start` is an element-indexed
address, `none` modelling `nullptr`; `allocId` identifies the shared
`AllocationInfo` record, `none` modelling a null `alloc_info`. -/

inductive VamError where
  | nullDeref
  | outOfRange
deriving DecidableEq

structure VamPointer where
  sizeofBase : Nat
  segBytes : Nat
  start : Option Nat
  size_bytes : Nat
  allocId : Option Nat
deriving DecidableEq

namespace VamPointer

/-- Models `size() const { return size_bytes / sizeof(base_t); }`. -/
def size (p : VamPointer) : Nat := p.size_bytes / p.sizeofBase

/-- Models `segment_count()`: `(size_bytes + segment_size_bytes - 1) / segment_size_bytes`. -/
def segment_count (p : VamPointer) : Nat :=
  (p.size_bytes + p.segBytes - 1) / p.segBytes

/-- The local `segment_elements = segment_size_bytes / sizeof(base_t)`
appearing in `get_segment` and (inlined) in `split`. -/
def segment_elements (p : VamPointer) : Nat := p.segBytes / p.sizeofBase

/-- Models `operator[]`: throws `logic_error` on a null `start`, `out_of_range`
when `index >= size()`, and otherwise returns `start[index]`.  The byte
contents of memory are supplied by `mem` (address to value). -/
def index (mem : Nat → Int) (p : VamPointer) (i : Nat) : Except VamError Int :=
  match p.start with
  | none => .error .nullDeref
  | some st =>
    if i ≥ p.size then .error .outOfRange
    else .ok (mem (st + i))

/-- Models `data(index)`: same checks as `operator[]`, returns the raw address
`start + index`. -/
def data (p : VamPointer) (i : Nat) : Except VamError Nat :=
  match p.start with
  | none => .error .nullDeref
  | some st =>
    if i ≥ p.size then .error .outOfRange
    else .ok (st + i)

/-- Models `get_segment(index)`: null / range checked; returns the pair
`(start + index*segment_elements, min(segment_elements, size() - offset))`. -/
def get_segment (p : VamPointer) (k : Nat) : Except VamError (Nat × Nat) :=
  match p.start with
  | none => .error .nullDeref
  | some st =>
    if k ≥ p.segment_count then .error .outOfRange
    else
      let offset := k * p.segment_elements
      let remaining_elements := p.size - offset
      .ok (st + offset, min p.segment_elements remaining_elements)

/-- The per-iteration sliver segment count in `split`:
`sliver_segments + (i < remainder ? 1 : 0)`. -/
def sliver_cnt (sliver_segments remainder i : Nat) : Nat :=
  sliver_segments + (if i < remainder then 1 else 0)

/-- The loop body of `VamPointer::split`, iterating `k` more times with
loop counter `i` and running segment `offset`.  Each iteration
`emplace_back(*this)` copy-constructs a handle (incrementing the shared
`ref_cnt`, threaded through as `ref`; the copy constructor dereferences
`alloc_info`, so the code requires a non-null handle) and then overwrites
its `start` and `size_bytes`. -/
def split_go (p : VamPointer) (sliver_segments remainder : Nat) :
    Nat → Nat → Nat → Nat → List VamPointer × Nat
  | 0, _, _, ref => ([], ref)
  | k + 1, i, offset, ref =>
    let cnt := sliver_cnt sliver_segments remainder i
    let sliver : VamPointer :=
      { p with
        start := p.start.map (fun s => s + offset * p.segment_elements)
        size_bytes := cnt * p.segBytes }
    let rest := split_go p sliver_segments remainder k (i + 1) (offset + cnt) (ref + 1)
    (sliver :: rest.1, rest.2)

/-- Models `split(sliver_count)`: distributes `segment_count()` segments over
`sliver_count` slivers, `segment_count() / sliver_count` each plus one
extra for the first `segment_count() % sliver_count`.  Returns the
slivers together with the updated shared reference count. -/
def split (p : VamPointer) (sliver_count : Nat) (ref : Nat) :
    List VamPointer × Nat :=
  split_go p (p.segment_count / sliver_count) (p.segment_count % sliver_count)
    sliver_count 0 0 ref

/-- Sum of the sliver segment counts for `j` consecutive loop iterations
of `split` starting at loop counter `i` (the value of `offset` gained
over those iterations). -/
def cntSumFrom (sliver_segments remainder i : Nat) : Nat → Nat
  | 0 => 0
  | j + 1 => sliver_cnt sliver_segments remainder i +
      cntSumFrom sliver_segments remainder (i + 1) j

end VamPointer

/-! ### Reference counting (destructor and `_free_ptr`)

`AllocationInfo.ref_cnt` is an `std::atomic<uint32_t>`; `fetch_sub(1)`
returns the previous value and wraps modulo `2^32`. -/

def UINT32_MOD : Nat := 4294967296

/-- Models `fetch_sub(1)` on a `uint32_t` atomic: returns `(previous, new)`
with wraparound. -/
def fetch_sub_one (r : Nat) : Nat × Nat :=
  (r, (r + UINT32_MOD - 1) % UINT32_MOD)

/-- State of one `AllocationInfo`: its reference count and how many
times the underlying allocation has been `numa_free`d. -/
structure AllocState where
  ref_cnt : Nat
  frees : Nat
deriving DecidableEq

/-- Models `_free_ptr` on a handle with non-null `alloc_info`: decrements
`ref_cnt` and, when the previous value was 1, frees the allocation and
returns `true`. -/
def free_ptr (st : AllocState) : AllocState × Bool :=
  let (prev, rnew) := fetch_sub_one st.ref_cnt
  if prev = 1 then ({ ref_cnt := rnew, frees := st.frees + 1 }, true)
  else ({ st with ref_cnt := rnew }, false)

/-- Models the destructor `~VamPointer()` on a handle with non-null `alloc_info`: performs its
own `fetch_sub(1)` and, when the previous value was 1, additionally runs
`_free_ptr` (which decrements again). -/
def destructor (st : AllocState) : AllocState :=
  let (prev, rnew) := fetch_sub_one st.ref_cnt
  let st1 : AllocState := { st with ref_cnt := rnew }
  if prev = 1 then (free_ptr st1).1 else st1

/-! ### Memory configuration and placement oracle
(src/code/utils/vmalloc/MemoryConfig.hpp, VamProphecy.hpp)

The node-to-memory-class map of `MemoryConfig` is an
`std::unordered_map<NumaId, Memory>` (`NumaId = int`), modelled as an
association list.  Both `get_first_node` overloads throw
`std::invalid_argument`, with distinct messages modelled as distinct
error constructors. -/

inductive Memory where
  | DRAM
  | HBM
deriving DecidableEq

inductive AccessPattern where
  | LINEAR
  | RANDOM
deriving DecidableEq

inductive ConfigError where
  /-- Models the throw of "No NUMA node found for memory type" in
  `get_first_node(Memory)`. -/
  | noNodeForType
  /-- Models the throw of "No NUMA nodes available in memory configuration"
  in the zero-argument `get_first_node()`. -/
  | noNodesAvailable
deriving DecidableEq

/-- Models `std::numeric_limits<NumaId>::max()` with `NumaId = int`. -/
def INT_MAX : Int := 2147483647

/-- Models `get_first_node(Memory mem_type)`: folds `std::min` over the
entries of the requested class starting from `INT_MAX`, throwing when
the sentinel survives. -/
def get_first_node_of (cfg : List (Int × Memory)) (mem_type : Memory) :
    Except ConfigError Int :=
  let min_node := cfg.foldl (fun mn nt => if nt.2 = mem_type then min mn nt.1 else mn) INT_MAX
  if min_node ≠ INT_MAX then .ok min_node else .error .noNodeForType

/-- Models the zero-argument `get_first_node()`: throws on an empty map
and otherwise folds `std::min` over all node ids. -/
def get_first_node_any (cfg : List (Int × Memory)) : Except ConfigError Int :=
  if cfg = [] then .error .noNodesAvailable
  else .ok (cfg.foldl (fun mn nt => min mn nt.1) INT_MAX)

/-- Models `VamProphecy::predict`: for `LINEAR` asks for the first HBM
node and falls back to the first node of any class when that throws;
otherwise asks for the first DRAM node. -/
def predict (cfg : List (Int × Memory)) (pattern : AccessPattern) :
    Except ConfigError Int :=
  if pattern = .LINEAR then
    match get_first_node_of cfg .HBM with
    | .ok n => .ok n
    | .error _ => get_first_node_any cfg
  else get_first_node_of cfg .DRAM

/-! ### CPU ranges and `get_cpu_id` (src/code/utils/cpu_set_utils.hpp)

A sub-range is `[lo, hi)` with an optional reversed flag (a plain
`std::pair<int,int>` sub-range has `reversed = false`).  The `while`
loop of `get_cpu_id` is embedded with explicit fuel; one unit of fuel is
consumed per loop entry, and `none` models a non-terminating loop.
Whenever every sub-range has positive length, `thread_id` strictly
decreases on each iteration, so `thread_id.toNat + 1` units of fuel
always suffice (proved below). -/

structure Subrange where
  lo : Int
  hi : Int
  rev : Bool
deriving DecidableEq

/-- Models `cpu_id::length(subrange) = end - start`. -/
def srLength (sr : Subrange) : Int := sr.hi - sr.lo

/-- The loop of `get_cpu_id`: while `length(range[i]) <= thread_id`,
subtract the length and advance `i` cyclically; then mirror the offset
if the selected sub-range is reversed and add its start. -/
def get_cpu_id_go (range : List Subrange) :
    Nat → Int → Nat → Option Int
  | 0, _, _ => none
  | fuel + 1, thread_id, i =>
    let sr := range.getD i ⟨0, 0, false⟩
    if srLength sr ≤ thread_id then
      get_cpu_id_go range fuel (thread_id - srLength sr) ((i + 1) % range.length)
    else
      some ((if sr.rev then srLength sr - 1 - thread_id else thread_id) + sr.lo)

/-- Models `get_cpu_id(thread_id, range)`. -/
def get_cpu_id (thread_id : Int) (range : List Subrange) : Option Int :=
  get_cpu_id_go range (thread_id.toNat + 1) thread_id 0

/-- The total number of cpu ids covered by a (multi)range. -/
def rangeTotal (range : List Subrange) : Int := (range.map srLength).sum

/-! ### ThreadManager automatic pinning
(src/code/utils/threads/ThreadManager.hpp, ThreadGroup.cpp,
ThreadWrapper.cpp)

Under the automatic policy, `create_thread_group` calls
`group->pin_threads(pin_range, next_core_index)`, which pins worker `i`
(its `thread_id`) to `get_cpu_id(next_core_index + i, range)`, and then
advances `next_core_index` by `thread_count`. -/

structure TMState where
  next_core_index : Nat
  pinnings : List (List (Option Int))
deriving DecidableEq

/-- Models the automatic-pinning part of `ThreadManager::create_thread_group`
for a group of `thread_count` workers. -/
def create_thread_group (range : List Subrange) (st : TMState)
    (thread_count : Nat) : TMState :=
  let pins := (List.range thread_count).map
    (fun i => get_cpu_id ((st.next_core_index : Int) + i) range)
  { next_core_index := st.next_core_index + thread_count
    pinnings := st.pinnings ++ [pins] }

/-- A sequence of group creations with worker counts `ws`, starting from
a fresh manager (`next_core_index = 0`). -/
def create_groups (range : List Subrange) (ws : List Nat) : TMState :=
  ws.foldl (create_thread_group range) ⟨0, []⟩

/-! ### ThreadGroup start barrier (src/code/utils/threads/ThreadGroup.cpp)

A group's start state consists of the promise `start_pistol` (whether
`set_value` has been called — a second `set_value` throws
`std::future_error` with `promise_already_satisfied`) and the guard flag
`start_pistol_fired` (set only by `run_async`, checked only by
`run_async`). -/

inductive StartError where
  /-- Models the `std::runtime_error("ThreadGroup already started")` thrown
  by `run_async`. -/
  | alreadyStarted
  /-- Models the `std::future_error` (`promise_already_satisfied`) thrown by
  `std::promise::set_value` on an already-satisfied promise. -/
  | promiseAlreadySatisfied
deriving DecidableEq

structure GroupStartState where
  pistol_set : Bool
  start_pistol_fired : Bool
deriving DecidableEq

/-- Models `ThreadGroup::run`: calls `start_pistol.set_value()` (throwing
if the promise is already satisfied) and joins; it does not touch
`start_pistol_fired`. -/
def group_run (st : GroupStartState) : Except StartError GroupStartState :=
  if st.pistol_set then .error .promiseAlreadySatisfied
  else .ok { st with pistol_set := true }

/-- Models `ThreadGroup::run_async`: throws `AlreadyStarted` when
`start_pistol_fired` is set, otherwise calls `set_value` (throwing if the
promise is already satisfied) and sets the flag, returning the join
handle (the successor state here). -/
def group_run_async (st : GroupStartState) : Except StartError GroupStartState :=
  if st.start_pistol_fired then .error .alreadyStarted
  else if st.pistol_set then .error .promiseAlreadySatisfied
  else .ok { pistol_set := true, start_pistol_fired := true }

/-! ### Query driver checksum and exit code
(src/code/query.hpp `checksum`, src/code/query.cpp `main`)

Column values are modelled as lists: `R.a`, `R.b` hold `int64_t`
(modelled as `Int`), `R.fk` and `S.pk` hold `uint32_t` keys (modelled as
`Nat`).  The `std::unordered_map<uint32_t, bool>` is modelled as a
function built by the insertion loop, `operator[]` default-inserting
`false` for absent keys. -/

structure TableR where
  a : List Int
  b : List Int
  fk : List Nat
deriving DecidableEq

structure TableS where
  pk : List Nat
deriving DecidableEq

/-- The first loop of `checksum`: `for j: map[s.pk[j]] = 1`. -/
def buildMap (pk : List Nat) : Nat → Bool :=
  pk.foldl (fun m k => fun x => if x = k then true else m x) (fun _ => false)

/-- Models `checksum(r, s)`: builds the membership map from `S.pk`, then
accumulates `(r.a[i] * r.b[i]) * map[r.fk[i]]` over all rows of `R`
(the `bool` converting to 0/1). -/
def checksum (r : TableR) (s : TableS) : Int :=
  let m := buildMap s.pk
  (List.range r.a.length).foldl
    (fun acc i =>
      acc + r.a.getD i 0 * r.b.getD i 0 * (if m (r.fk.getD i 0) then 1 else 0))
    0

/-- Models the tail of `main`: exit code 0 when the pipeline result equals
`checksum(r, s)`, otherwise 1. -/
def main_exit (final_sum : Int) (r : TableR) (s : TableS) : Nat :=
  if final_sum = checksum r s then 0 else 1

/-- The specification's reference sum
`safe_sum = Σ_i (R.a[i] * R.b[i]) * [R.fk[i] ∈ S.pk]`, stated from the
spec's words for comparison with `checksum`. -/
def spec_safe_sum (r : TableR) (s : TableS) : Int :=
  ((List.range r.a.length).map
    (fun i => r.a.getD i 0 * r.b.getD i 0 * (if r.fk.getD i 0 ∈ s.pk then 1 else 0))).sum

/-- Decidable equality on `Except`, so results of the fallible
operations can be compared by `decide`. -/
instance {ε α : Type} [DecidableEq ε] [DecidableEq α] :
    DecidableEq (Except ε α) := fun x y =>
  match x, y with
  | .error e, .error f =>
    if h : e = f then .isTrue (by rw [h])
    else .isFalse (fun hh => h (Except.error.inj hh))
  | .ok a, .ok b =>
    if h : a = b then .isTrue (by rw [h])
    else .isFalse (fun hh => h (Except.ok.inj hh))
  | .error _, .ok _ => .isFalse (fun hh => Except.noConfusion hh)
  | .ok _, .error _ => .isFalse (fun hh => Except.noConfusion hh)

/-- Total length of the sub-ranges from position `i` on; the residual
amount the `get_cpu_id` loop subtracts when walking from sub-range `i`
back around to sub-range 0. -/
def suffix_total (range : List Subrange) (i : Nat) : Int :=
  ((range.drop i).map srLength).sum

/-- The per-group pinning lists produced by a sequence of group
creations with worker counts `ws` when the manager's cursor starts at
`base`. -/
def expected_pinnings (range : List Subrange) (base : Nat) :
    List Nat → List (List (Option Int))
  | [] => []
  | w :: ws =>
    ((List.range w).map (fun i => get_cpu_id ((base : Int) + i) range)) ::
      expected_pinnings range (base + w) ws

/-! ## Lemmas about `split` -/

namespace VamPointer

theorem split_go_length (p : VamPointer) (q rem : Nat) :
    ∀ k i offset ref, ((split_go p q rem k i offset ref).1).length = k := by
  intro k
  induction k with
  | zero => intro i offset ref; rfl
  | succ k ih => intro i offset ref; simp [split_go, ih]

theorem split_go_ref (p : VamPointer) (q rem : Nat) :
    ∀ k i offset ref, (split_go p q rem k i offset ref).2 = ref + k := by
  intro k
  induction k with
  | zero => intro i offset ref; rfl
  | succ k ih =>
    intro i offset ref
    simp only [split_go]
    rw [ih]
    omega

theorem split_go_getElem (p : VamPointer) (q rem : Nat) :
    ∀ j k i offset ref, j < k →
      (split_go p q rem k i offset ref).1.get? j =
        some { p with
          start := p.start.map
            (fun s => s + (offset + cntSumFrom q rem i j) * p.segment_elements)
          size_bytes := sliver_cnt q rem (i + j) * p.segBytes } := by
  intro j
  induction j with
  | zero =>
    intro k i offset ref hk
    match k, hk with
    | k + 1, _ =>
      simp [split_go, cntSumFrom]
  | succ j ih =>
    intro k i offset ref hk
    match k, hk with
    | k + 1, hk =>
      have hjk : j < k := by omega
      simp only [split_go, List.get?_cons_succ]
      rw [ih k (i + 1) (offset + sliver_cnt q rem i) (ref + 1) hjk]
      have h1 : i + 1 + j = i + (j + 1) := by omega
      have h2 : offset + sliver_cnt q rem i + cntSumFrom q rem (i + 1) j =
          offset + cntSumFrom q rem i (j + 1) := by
        simp only [cntSumFrom]
        omega
      rw [h1, h2]

theorem cntSumFrom_eq (q rem : Nat) :
    ∀ j i, cntSumFrom q rem i j = j * q + (min (i + j) rem - min i rem) := by
  intro j
  induction j with
  | zero => intro i; simp [cntSumFrom]
  | succ j ih =>
    intro i
    simp only [cntSumFrom, sliver_cnt, ih (i + 1)]
    have hq : (j + 1) * q = j * q + q := by ring
    rw [hq]
    simp only [Nat.min_def]
    split_ifs <;> omega

theorem cntSum_zero_total (N n : Nat) (hn : 0 < n) :
    cntSumFrom (N / n) (N % n) 0 n = N := by
  rw [cntSumFrom_eq]
  have hmod : N % n < n := Nat.mod_lt _ hn
  have hdm : n * (N / n) + N % n = N := Nat.div_add_mod N n
  have h0 : min (0 + n) (N % n) = N % n := by omega
  have h1 : min 0 (N % n) = 0 := by omega
  rw [h0, h1]
  simpa using hdm

theorem ceil_div_of_mul (cnt S : Nat) (hS : 0 < S) :
    (cnt * S + S - 1) / S = cnt := by
  have h : cnt * S + S - 1 = (S - 1) + S * cnt := by
    rw [Nat.mul_comm S cnt]
    omega
  rw [h, Nat.add_mul_div_left _ _ hS, Nat.div_eq_of_lt (by omega)]
  omega

theorem split_go_size_sum (p : VamPointer) (q rem : Nat)
    (hdvd : p.sizeofBase ∣ p.segBytes) :
    ∀ k i offset ref, (((split_go p q rem k i offset ref).1).map size).sum =
      cntSumFrom q rem i k * p.segment_elements := by
  intro k
  induction k with
  | zero => intro i offset ref; simp [split_go, cntSumFrom]
  | succ k ih =>
    intro i offset ref
    simp only [split_go, List.map_cons, List.sum_cons, ih]
    have hsz : ({ p with
        start := p.start.map (fun s => s + offset * p.segment_elements)
        size_bytes := sliver_cnt q rem i * p.segBytes } : VamPointer).size =
        sliver_cnt q rem i * p.segment_elements := by
      simp only [size, segment_elements]
      exact Nat.mul_div_assoc _ hdvd
    rw [hsz]
    simp only [cntSumFrom]
    ring

theorem split_length (p : VamPointer) (n ref : Nat) :
    ((p.split n ref).1).length = n :=
  split_go_length p _ _ n 0 0 ref

theorem split_getElem (p : VamPointer) (n ref j : Nat) (hj : j < n) :
    (p.split n ref).1.get? j =
      some { p with
        start := p.start.map
          (fun s => s + cntSumFrom (p.segment_count / n) (p.segment_count % n) 0 j *
            p.segment_elements)
        size_bytes :=
          sliver_cnt (p.segment_count / n) (p.segment_count % n) j * p.segBytes } := by
  have h := split_go_getElem p (p.segment_count / n) (p.segment_count % n)
    j n 0 0 ref hj
  simpa [split] using h

theorem split_index_lt (p : VamPointer) (n ref j : Nat) (s : VamPointer)
    (h : (p.split n ref).1.get? j = some s) : j < n := by
  by_contra hge
  rw [List.get?_eq_none.mpr (by rw [split_length]; omega)] at h
  exact Option.noConfusion h

end VamPointer

/-! ## Claim theorems -/

/-- C2: the claim (and the class's own documentation) says that when the
last live handle is destroyed the allocation is freed exactly once with
`ref_cnt` reaching zero.  The destructor however decrements `ref_cnt`
twice — once itself and once more inside `_free_ptr` — so at the last
destroy the inner check compares the wrapped previous value 0 against 1,
`numa_free` is never called, and `ref_cnt` underflows to `2^32 - 1`.
(The direct `_free_ptr` path used by the assignment operators, shown
last, is the intended single-decrement behaviour.)  Destroying a
non-last handle (initial `ref_cnt = 2`) decrements once, as expected. -/
theorem C2_destructor_double_decrement :
    destructor ⟨1, 0⟩ = ⟨UINT32_MOD - 1, 0⟩ ∧
    (destructor ⟨1, 0⟩).frees = 0 ∧
    destructor ⟨2, 0⟩ = ⟨1, 0⟩ ∧
    free_ptr ⟨1, 0⟩ = (⟨0, 1⟩, true) := by
  decide

/-- C3 (counterexample): the claim asserts that for any non-empty
pointer and `1 ≤ n ≤ segment_count()`, the sliver sizes of `split(n)`
sum to `p.size()`.  For a `SegPtr<uint32_t, 16>` over 10 elements
(`size_bytes = 40`, three segments, short tail) already `split(1)`
yields one sliver of `size_bytes = 3 * 16 = 48`, i.e. 12 elements, not
10: each sliver's extent is rounded up to whole segments. -/
theorem C3_counterexample :
    (⟨4, 16, some 0, 40, some 0⟩ : VamPointer).start ≠ none ∧
    1 ≤ (⟨4, 16, some 0, 40, some 0⟩ : VamPointer).segment_count ∧
    ¬ ((((⟨4, 16, some 0, 40, some 0⟩ : VamPointer).split 1 1).1.map
        VamPointer.size).sum = (⟨4, 16, some 0, 40, some 0⟩ : VamPointer).size) := by
  decide

/-- C3 (amended): for a non-null pointer whose element size divides the
segment size and `1 ≤ n ≤ segment_count()`, the sliver sizes of
`split(n)` sum to `segment_count() * (S / sizeof(T))` — `p.size()`
rounded up to a whole number of segments — which equals `p.size()`
exactly when `size_bytes` is a multiple of the segment size; and every
sliver's `start` is offset from `p.start` by a whole number of
segments. -/
theorem C3_split_size_sum (p : VamPointer) (n ref st0 : Nat)
    (hn : 1 ≤ n) (hle : n ≤ p.segment_count) (hstart : p.start = some st0)
    (hS : 0 < p.segBytes) (hdvd : p.sizeofBase ∣ p.segBytes)
    (hszb : 0 < p.sizeofBase) :
    (((p.split n ref).1.map VamPointer.size).sum =
      p.segment_count * p.segment_elements) ∧
    (p.segBytes ∣ p.size_bytes →
      ((p.split n ref).1.map VamPointer.size).sum = p.size) ∧
    (∀ j s, (p.split n ref).1.get? j = some s →
      ∃ m, s.start = some (st0 + m * p.segment_elements)) := by
  have hsum : ((p.split n ref).1.map VamPointer.size).sum =
      p.segment_count * p.segment_elements := by
    rw [VamPointer.split, VamPointer.split_go_size_sum p _ _ hdvd n 0 0 ref,
      VamPointer.cntSum_zero_total _ _ (by omega)]
  refine ⟨hsum, ?_, ?_⟩
  · intro hdvd_sb
    rw [hsum]
    obtain ⟨t, ht⟩ := hdvd_sb
    obtain ⟨E, hE⟩ : p.sizeofBase ∣ p.segBytes := hdvd
    have hseg : p.segment_count = t := by
      rw [VamPointer.segment_count, ht, Nat.mul_comm p.segBytes t]
      exact VamPointer.ceil_div_of_mul t p.segBytes hS
    have hEdef : p.segment_elements = E := by
      rw [VamPointer.segment_elements, hE]
      exact Nat.mul_div_cancel_left E hszb
    have hsize : p.size = t * E := by
      rw [VamPointer.size, ht, hE]
      have : p.sizeofBase * E * t = p.sizeofBase * (t * E) := by ring
      rw [this]
      exact Nat.mul_div_cancel_left _ hszb
    rw [hseg, hEdef, hsize]
  · intro j s hjs
    have hj : j < n := VamPointer.split_index_lt p n ref j s hjs
    rw [VamPointer.split_getElem p n ref j hj] at hjs
    have hs := (Option.some.injEq _ _).mp hjs
    refine ⟨VamPointer.cntSumFrom (p.segment_count / n) (p.segment_count % n) 0 j, ?_⟩
    rw [← hs]
    simp [hstart]

/-- C3 (witness): the amended statement instantiated at a
`SegPtr<uint32_t, 16>` over 10 elements split into 2 slivers; the sliver
sizes sum to `3 * 4 = 12`, the size rounded up to whole segments. -/
theorem C3_split_size_sum_witness :
    (1 ≤ 2 ∧ 2 ≤ (⟨4, 16, some 0, 40, some 0⟩ : VamPointer).segment_count ∧
      (⟨4, 16, some 0, 40, some 0⟩ : VamPointer).start = some 0 ∧
      0 < (16 : Nat) ∧ (4 : Nat) ∣ 16 ∧ 0 < (4 : Nat)) ∧
    ((((⟨4, 16, some 0, 40, some 0⟩ : VamPointer).split 2 1).1.map
        VamPointer.size).sum =
      (⟨4, 16, some 0, 40, some 0⟩ : VamPointer).segment_count *
        (⟨4, 16, some 0, 40, some 0⟩ : VamPointer).segment_elements) :=
  ⟨⟨by decide, by decide, rfl, by decide, by decide, by decide⟩,
    (C3_split_size_sum (⟨4, 16, some 0, 40, some 0⟩ : VamPointer) 2 1 0
      (by decide) (by decide) rfl (by decide) (by decide) (by decide)).1⟩

/-- C4: for `1 ≤ n ≤ segment_count()` on a handle holding an allocation,
`split(n)` yields `n` slivers where sliver `j` covers
`segment_count() / n` segments plus one extra for the first
`segment_count() % n` slivers, every sliver shares `p`'s
`AllocationInfo`, and the shared `ref_cnt` grows by exactly `n` (one
copy construction per sliver). -/
theorem C4_split_even_refcnt (p : VamPointer) (n ref a0 : Nat)
    (hn : 1 ≤ n) (hle : n ≤ p.segment_count) (halloc : p.allocId = some a0)
    (hS : 0 < p.segBytes) :
    ((p.split n ref).1.length = n) ∧
    (∀ j s, (p.split n ref).1.get? j = some s →
      s.segment_count =
        p.segment_count / n + (if j < p.segment_count % n then 1 else 0) ∧
      s.allocId = some a0) ∧
    (p.split n ref).2 = ref + n := by
  refine ⟨VamPointer.split_length p n ref, ?_, ?_⟩
  · intro j s hjs
    have hj : j < n := VamPointer.split_index_lt p n ref j s hjs
    rw [VamPointer.split_getElem p n ref j hj] at hjs
    have hs := (Option.some.injEq _ _).mp hjs
    constructor
    · rw [← hs]
      show (VamPointer.sliver_cnt (p.segment_count / n) (p.segment_count % n) j *
          p.segBytes + p.segBytes - 1) / p.segBytes = _
      rw [VamPointer.ceil_div_of_mul _ _ hS, VamPointer.sliver_cnt]
    · rw [← hs]
      exact halloc
  · rw [VamPointer.split, VamPointer.split_go_ref]

/-- C4 (witness): splitting a 7-segment pointer into 3 slivers; the
sliver segment counts are `(3, 2, 2)` and the reference count grows from
1 to 4. -/
theorem C4_split_even_refcnt_witness :
    (1 ≤ 3 ∧ 3 ≤ (⟨4, 16, some 0, 112, some 5⟩ : VamPointer).segment_count ∧
      (⟨4, 16, some 0, 112, some 5⟩ : VamPointer).allocId = some 5 ∧
      0 < (16 : Nat)) ∧
    (((⟨4, 16, some 0, 112, some 5⟩ : VamPointer).split 3 1).1.map
      VamPointer.segment_count = [3, 2, 2]) ∧
    ((((⟨4, 16, some 0, 112, some 5⟩ : VamPointer).split 3 1).1.length = 3) ∧
      (∀ j s, ((⟨4, 16, some 0, 112, some 5⟩ : VamPointer).split 3 1).1.get? j =
          some s →
        s.segment_count =
          (⟨4, 16, some 0, 112, some 5⟩ : VamPointer).segment_count / 3 +
            (if j < (⟨4, 16, some 0, 112, some 5⟩ : VamPointer).segment_count % 3
              then 1 else 0) ∧
        s.allocId = some 5) ∧
      ((⟨4, 16, some 0, 112, some 5⟩ : VamPointer).split 3 1).2 = 1 + 3) :=
  ⟨⟨by decide, by decide, rfl, by decide⟩, by decide,
    C4_split_even_refcnt (⟨4, 16, some 0, 112, some 5⟩ : VamPointer) 3 1 5
      (by decide) (by decide) rfl (by decide)⟩

/-- C10: for `n` larger than `segment_count()` (and a handle holding an
allocation), `split(n)` still returns exactly `n` slivers: the first
`segment_count()` each cover one segment, the remaining ones are empty
(`size_bytes = 0`, `size() = 0`, `segment_count() = 0`), every sliver
shares `p`'s allocation, and `ref_cnt` grows by exactly `n`. -/
theorem C10_split_overcommit (p : VamPointer) (n ref a0 : Nat)
    (hn : 1 ≤ n) (hgt : p.segment_count < n) (halloc : p.allocId = some a0)
    (hS : 0 < p.segBytes) :
    ((p.split n ref).1.length = n) ∧
    (∀ j s, (p.split n ref).1.get? j = some s →
      s.allocId = some a0 ∧
      (j < p.segment_count → s.segment_count = 1) ∧
      (p.segment_count ≤ j →
        s.size_bytes = 0 ∧ s.size = 0 ∧ s.segment_count = 0)) ∧
    (p.split n ref).2 = ref + n := by
  have hq : p.segment_count / n = 0 := Nat.div_eq_of_lt hgt
  have hrem : p.segment_count % n = p.segment_count := Nat.mod_eq_of_lt hgt
  refine ⟨VamPointer.split_length p n ref, ?_, ?_⟩
  · intro j s hjs
    have hj : j < n := VamPointer.split_index_lt p n ref j s hjs
    rw [VamPointer.split_getElem p n ref j hj] at hjs
    have hs := (Option.some.injEq _ _).mp hjs
    refine ⟨by rw [← hs]; exact halloc, ?_, ?_⟩
    · intro hjseg
      rw [← hs]
      show (VamPointer.sliver_cnt (p.segment_count / n) (p.segment_count % n) j *
          p.segBytes + p.segBytes - 1) / p.segBytes = 1
      rw [VamPointer.ceil_div_of_mul _ _ hS, VamPointer.sliver_cnt, hq, hrem]
      simp [hjseg]
    · intro hjseg
      have hcnt : VamPointer.sliver_cnt (p.segment_count / n)
          (p.segment_count % n) j = 0 := by
        rw [VamPointer.sliver_cnt, hq, hrem]
        simp
        omega
      rw [← hs]
      refine ⟨?_, ?_, ?_⟩
      · show VamPointer.sliver_cnt _ _ j * p.segBytes = 0
        rw [hcnt]; ring
      · show VamPointer.sliver_cnt _ _ j * p.segBytes / p.sizeofBase = 0
        rw [hcnt]; simp
      · show (VamPointer.sliver_cnt _ _ j * p.segBytes + p.segBytes - 1) /
            p.segBytes = 0
        rw [hcnt]
        simp
        exact Nat.div_eq_of_lt (by omega)
  · rw [VamPointer.split, VamPointer.split_go_ref]

/-- C10 (witness): a 2-segment pointer split into 5 slivers: segment
counts `(1, 1, 0, 0, 0)`, all sharing allocation 7, reference count
growing from 1 to 6. -/
theorem C10_split_overcommit_witness :
    (1 ≤ 5 ∧ (⟨4, 16, some 0, 32, some 7⟩ : VamPointer).segment_count < 5 ∧
      (⟨4, 16, some 0, 32, some 7⟩ : VamPointer).allocId = some 7 ∧
      0 < (16 : Nat)) ∧
    ((((⟨4, 16, some 0, 32, some 7⟩ : VamPointer).split 5 1).1.length = 5) ∧
      (∀ j s, ((⟨4, 16, some 0, 32, some 7⟩ : VamPointer).split 5 1).1.get? j =
          some s →
        s.allocId = some 7 ∧
        (j < (⟨4, 16, some 0, 32, some 7⟩ : VamPointer).segment_count →
          s.segment_count = 1) ∧
        ((⟨4, 16, some 0, 32, some 7⟩ : VamPointer).segment_count ≤ j →
          s.size_bytes = 0 ∧ s.size = 0 ∧ s.segment_count = 0)) ∧
      ((⟨4, 16, some 0, 32, some 7⟩ : VamPointer).split 5 1).2 = 1 + 5) :=
  ⟨⟨by decide, by decide, rfl, by decide⟩,
    C10_split_overcommit (⟨4, 16, some 0, 32, some 7⟩ : VamPointer) 5 1 7
      (by decide) (by decide) rfl (by decide)⟩

/-! ## Arithmetic lemmas for the segment-iteration claim -/

/-- Chunking a total of `m` elements into pieces of `E` with a short
tail: the piece sizes `min E (m - k*E)` for `k` below the ceiling
`K = ⌈m / E⌉` sum to `m`. -/
theorem sum_min_chunks (E : Nat) (hE : 0 < E) :
    ∀ K m, m ≤ K * E → K * E < m + E →
      ((List.range K).map (fun k => min E (m - k * E))).sum = m := by
  intro K
  induction K with
  | zero =>
    intro m h1 h2
    simp at h1
    simp [h1]
  | succ K ih =>
    intro m h1 h2
    rw [List.range_succ_eq_map]
    simp only [List.map_cons, List.map_map, List.sum_cons]
    have hcong : (List.range K).map ((fun k => min E (m - k * E)) ∘ Nat.succ) =
        (List.range K).map (fun k => min E ((m - E) - k * E)) := by
      apply List.map_congr_left
      intro k _
      simp only [Function.comp]
      rw [Nat.succ_mul]
      congr 1
      omega
    rw [hcong]
    have hKE : (K + 1) * E = K * E + E := by ring
    have ih1 : m - E ≤ K * E := by omega
    have ih2 : K * E < (m - E) + E := by omega
    rw [ih (m - E) ih1 ih2]
    have : min E (m - 0 * E) = min E m := by norm_num
    rw [this]
    rcases Nat.le_total E m with h | h
    · rw [Nat.min_eq_left h]; omega
    · rw [Nat.min_eq_right h]; omega

/-- Ceiling division is invariant under scaling numerator and
denominator by the same positive factor:
`(szb*m + szb*E - 1) / (szb*E) = (m + E - 1) / E`. -/
theorem ceil_div_scale (szb E m : Nat) (hszb : 0 < szb) (hE : 0 < E) :
    (szb * m + szb * E - 1) / (szb * E) = (m + E - 1) / E := by
  have hmod := Nat.div_add_mod (m + E - 1) E
  have hrlt : (m + E - 1) % E < E := Nat.mod_lt _ hE
  set D := (m + E - 1) / E with hD
  set r := (m + E - 1) % E with hr
  have hup : m + E ≤ E * (D + 1) := by
    have h : E * (D + 1) = E * D + E := by ring
    omega
  have hlo : E * D ≤ m + E - 1 := by omega
  apply Nat.div_eq_of_lt_le
  · have h2 : szb * (E * D) ≤ szb * (m + E - 1) := Nat.mul_le_mul_left szb hlo
    have h3 : szb * (m + E - 1) + szb = szb * (m + E) := by
      have hme : m + E - 1 + 1 = m + E := by omega
      calc szb * (m + E - 1) + szb = szb * (m + E - 1 + 1) := by ring
        _ = szb * (m + E) := by rw [hme]
    have h4 : szb * (m + E) = szb * m + szb * E := by ring
    have h5 : D * (szb * E) = szb * (E * D) := by ring
    omega
  · have h2 : szb * (m + E) ≤ szb * (E * (D + 1)) := Nat.mul_le_mul_left szb hup
    have h4 : szb * (m + E) = szb * m + szb * E := by ring
    have h5 : (D + 1) * (szb * E) = szb * (E * (D + 1)) := by ring
    have h6 : 0 < szb * E := Nat.mul_pos hszb hE
    omega

/-- C5 (counterexample): the claim asserts, for any non-null pointer
whose `size_bytes` is a positive multiple of `sizeof(T)`, that every
`get_segment(k)` count lies in `[1, S/sizeof(T)]` and the counts sum to
`size()`.  For a pointer with `sizeof(T) = 4` and segment size `S = 2`
(`S/sizeof(T) = 0`) over `size_bytes = 4`, `segment_count() = 2` and
both segments report count `min(0, …) = 0`, so the counts sum to 0 ≠ 1
and no count reaches 1.  The claim needs `S` to be a positive multiple
of `sizeof(T)`. -/
theorem C5_counterexample :
    (⟨4, 2, some 0, 4, some 0⟩ : VamPointer).start ≠ none ∧
    (4 : Nat) ∣ (⟨4, 2, some 0, 4, some 0⟩ : VamPointer).size_bytes ∧
    0 < (⟨4, 2, some 0, 4, some 0⟩ : VamPointer).size_bytes ∧
    (⟨4, 2, some 0, 4, some 0⟩ : VamPointer).segment_count = 2 ∧
    (⟨4, 2, some 0, 4, some 0⟩ : VamPointer).get_segment 0 = .ok (0, 0) ∧
    (⟨4, 2, some 0, 4, some 0⟩ : VamPointer).get_segment 1 = .ok (0, 0) ∧
    ¬ (((List.range ((⟨4, 2, some 0, 4, some 0⟩ : VamPointer).segment_count)).map
        (fun k => min ((⟨4, 2, some 0, 4, some 0⟩ : VamPointer).segment_elements)
          ((⟨4, 2, some 0, 4, some 0⟩ : VamPointer).size -
            k * (⟨4, 2, some 0, 4, some 0⟩ : VamPointer).segment_elements))).sum =
      (⟨4, 2, some 0, 4, some 0⟩ : VamPointer).size) :=
  ⟨by decide, by decide, by decide, by decide, rfl, rfl, by decide⟩

/-- C5 (amended): for a non-null pointer whose `size_bytes` is a
positive multiple of `sizeof(T)` and whose segment size `S` is a
positive multiple of `sizeof(T)`: `segment_count()` is the ceiling of
`size()` over `S/sizeof(T)`; each `get_segment(k)` with
`k < segment_count()` returns address `start + k*(S/sizeof(T))` and
count `min(S/sizeof(T), size() - k*(S/sizeof(T)))`, which lies in
`[1, S/sizeof(T)]`; and the counts over all `k` sum to `size()`. -/
theorem C5_get_segment (p : VamPointer) (st0 : Nat)
    (hstart : p.start = some st0) (hszb : 0 < p.sizeofBase)
    (hpos : 0 < p.size_bytes) (hmul : p.sizeofBase ∣ p.size_bytes)
    (hSmul : p.sizeofBase ∣ p.segBytes) (hSpos : p.sizeofBase ≤ p.segBytes) :
    p.segment_count = (p.size + p.segment_elements - 1) / p.segment_elements ∧
    (∀ k, k < p.segment_count →
      p.get_segment k = .ok (st0 + k * p.segment_elements,
        min p.segment_elements (p.size - k * p.segment_elements)) ∧
      1 ≤ min p.segment_elements (p.size - k * p.segment_elements) ∧
      min p.segment_elements (p.size - k * p.segment_elements) ≤
        p.segment_elements) ∧
    ((List.range p.segment_count).map
      (fun k => min p.segment_elements
        (p.size - k * p.segment_elements))).sum = p.size := by
  obtain ⟨E, hE⟩ := hSmul
  obtain ⟨m, hm⟩ := hmul
  have hEdef : p.segment_elements = E := by
    rw [VamPointer.segment_elements, hE]
    exact Nat.mul_div_cancel_left E hszb
  have hsize : p.size = m := by
    rw [VamPointer.size, hm]
    exact Nat.mul_div_cancel_left m hszb
  have hEpos : 0 < E := by
    rcases Nat.eq_zero_or_pos E with h0 | h; · rw [h0] at hE; omega
    exact h
  have hmpos : 0 < m := by
    rcases Nat.eq_zero_or_pos m with h0 | h; · rw [h0] at hm; omega
    exact h
  have hseg : p.segment_count = (m + E - 1) / E := by
    rw [VamPointer.segment_count, hm, hE]
    have h1 : p.sizeofBase * m + p.sizeofBase * E - 1 =
        p.sizeofBase * m + p.sizeofBase * E - 1 := rfl
    exact ceil_div_scale p.sizeofBase E m hszb hEpos
  set K := p.segment_count with hK
  have hmod := Nat.div_add_mod (m + E - 1) E
  have hrlt : (m + E - 1) % E < E := Nat.mod_lt _ hEpos
  have hbound1 : m ≤ K * E := by
    have h : E * ((m + E - 1) / E) + E = E * ((m + E - 1) / E + 1) := by ring
    have h2 : K * E = E * ((m + E - 1) / E) := by rw [hseg]; ring
    omega
  have hbound2 : K * E < m + E := by
    have h2 : K * E = E * ((m + E - 1) / E) := by rw [hseg]; ring
    omega
  refine ⟨by rw [hseg, hEdef, hsize], ?_, ?_⟩
  · intro k hk
    have hkE : k * E < m := by
      have hk1 : k + 1 ≤ K := hk
      have h3 : (k + 1) * E ≤ K * E := Nat.mul_le_mul_right E hk1
      have h4 : (k + 1) * E = k * E + E := by ring
      omega
    constructor
    · rw [VamPointer.get_segment, hstart]
      simp only [hK]
      rw [if_neg (by omega)]
    · rw [hEdef, hsize]
      constructor
      · have : 1 ≤ m - k * E := by omega
        omega
      · exact Nat.min_le_left _ _
  · rw [hEdef, hsize]
    exact sum_min_chunks E hEpos K m hbound1 hbound2

/-- C5 (witness): the amended statement instantiated at a
`SegPtr<uint32_t, 16>` over 10 elements (`size_bytes = 40`): three
segments with counts `(4, 4, 2)` summing to 10. -/
theorem C5_get_segment_witness :
    ((⟨4, 16, some 0, 40, some 0⟩ : VamPointer).start = some 0 ∧
      0 < (4 : Nat) ∧ 0 < (40 : Nat) ∧ (4 : Nat) ∣ 40 ∧ (4 : Nat) ∣ 16 ∧
      (4 : Nat) ≤ 16) ∧
    ((List.range ((⟨4, 16, some 0, 40, some 0⟩ : VamPointer).segment_count)).map
      (fun k => min ((⟨4, 16, some 0, 40, some 0⟩ : VamPointer).segment_elements)
        ((⟨4, 16, some 0, 40, some 0⟩ : VamPointer).size -
          k * (⟨4, 16, some 0, 40, some 0⟩ : VamPointer).segment_elements)) =
      [4, 4, 2]) ∧
    (((List.range ((⟨4, 16, some 0, 40, some 0⟩ : VamPointer).segment_count)).map
      (fun k => min ((⟨4, 16, some 0, 40, some 0⟩ : VamPointer).segment_elements)
        ((⟨4, 16, some 0, 40, some 0⟩ : VamPointer).size -
          k * (⟨4, 16, some 0, 40, some 0⟩ : VamPointer).segment_elements))).sum =
      (⟨4, 16, some 0, 40, some 0⟩ : VamPointer).size) :=
  ⟨⟨rfl, by decide, by decide, by decide, by decide, by decide⟩, by decide,
    (C5_get_segment (⟨4, 16, some 0, 40, some 0⟩ : VamPointer) 0 rfl
      (by decide) (by decide) (by decide) (by decide) (by decide)).2.2⟩

/-- C6: element access `operator[]` (`index`) and raw-address access
`data` fail with the null-dereference error on a null/empty handle — the
null check comes first — fail with the out-of-range error when
`i ≥ size()`, and otherwise return the element (respectively the
address) at `start + i`; `get_segment` applies the same failure model to
segment indices. -/
theorem C6_access_checks (mem : Nat → Int) (p : VamPointer) (i k : Nat) :
    (p.start = none →
      p.index mem i = .error .nullDeref ∧
      p.data i = .error .nullDeref ∧
      p.get_segment k = .error .nullDeref) ∧
    (∀ st, p.start = some st →
      (p.size ≤ i →
        p.index mem i = .error .outOfRange ∧ p.data i = .error .outOfRange) ∧
      (i < p.size →
        p.index mem i = .ok (mem (st + i)) ∧ p.data i = .ok (st + i)) ∧
      (p.segment_count ≤ k → p.get_segment k = .error .outOfRange)) := by
  constructor
  · intro h
    refine ⟨?_, ?_, ?_⟩ <;>
      simp [VamPointer.index, VamPointer.data, VamPointer.get_segment, h]
  · intro st h
    refine ⟨?_, ?_, ?_⟩
    · intro hge
      constructor <;>
        · simp only [VamPointer.index, VamPointer.data, h]
          rw [if_pos (by omega)]
    · intro hlt
      constructor <;>
        · simp only [VamPointer.index, VamPointer.data, h]
          rw [if_neg (by omega)]
    · intro hge
      simp only [VamPointer.get_segment, h]
      rw [if_pos (by omega)]

/-- C6 (witness): concrete failures of each kind — a null handle, an
out-of-range element index on a 10-element pointer, an in-range access,
and an out-of-range segment index. -/
theorem C6_access_checks_witness :
    (⟨4, 16, none, 0, none⟩ : VamPointer).index (fun _ => 0) 0 =
      .error .nullDeref ∧
    (⟨4, 16, some 0, 40, some 0⟩ : VamPointer).index (fun _ => 7) 12 =
      .error .outOfRange ∧
    (⟨4, 16, some 0, 40, some 0⟩ : VamPointer).index (fun a => (a : Int)) 3 =
      .ok 3 ∧
    (⟨4, 16, some 0, 40, some 0⟩ : VamPointer).data 3 = .ok 3 ∧
    (⟨4, 16, some 0, 40, some 0⟩ : VamPointer).get_segment 3 =
      .error .outOfRange :=
  ⟨((C6_access_checks (fun _ => 0) (⟨4, 16, none, 0, none⟩ : VamPointer) 0 0).1
      rfl).1,
    (((C6_access_checks (fun _ => 7) (⟨4, 16, some 0, 40, some 0⟩ : VamPointer)
      12 0).2 0 rfl).1 (by decide)).1,
    ((((C6_access_checks (fun a => (a : Int)) (⟨4, 16, some 0, 40, some 0⟩ :
      VamPointer) 3 0).2 0 rfl).2.1 (by decide)).1),
    ((((C6_access_checks (fun a => (a : Int)) (⟨4, 16, some 0, 40, some 0⟩ :
      VamPointer) 3 0).2 0 rfl).2.1 (by decide)).2),
    (((C6_access_checks (fun _ => 0) (⟨4, 16, some 0, 40, some 0⟩ : VamPointer)
      0 3).2 0 rfl).2.2 (by decide))⟩

/-! ## Lemmas about the placement oracle fold -/

theorem first_node_fold_le_acc (mem_type : Memory) :
    ∀ (cfg : List (Int × Memory)) (acc : Int),
      cfg.foldl (fun mn nt => if nt.2 = mem_type then min mn nt.1 else mn) acc ≤
        acc := by
  intro cfg
  induction cfg with
  | nil => intro acc; simp
  | cons hd tl ih =>
    intro acc
    simp only [List.foldl_cons]
    rcases Decidable.em (hd.2 = mem_type) with h | h
    · rw [if_pos h]
      exact le_trans (ih _) (min_le_left _ _)
    · rw [if_neg h]
      exact ih _

theorem first_node_fold_le_entry (mem_type : Memory) :
    ∀ (cfg : List (Int × Memory)) (acc : Int) (x : Int × Memory),
      x ∈ cfg → x.2 = mem_type →
      cfg.foldl (fun mn nt => if nt.2 = mem_type then min mn nt.1 else mn) acc ≤
        x.1 := by
  intro cfg
  induction cfg with
  | nil => intro acc x hx; exact absurd hx (List.not_mem_nil x)
  | cons hd tl ih =>
    intro acc x hx hxm
    simp only [List.foldl_cons]
    rcases List.mem_cons.mp hx with rfl | hx'
    · rw [if_pos hxm]
      exact le_trans (first_node_fold_le_acc mem_type tl _) (min_le_right _ _)
    · rcases Decidable.em (hd.2 = mem_type) with h | h
      · rw [if_pos h]; exact ih _ x hx' hxm
      · rw [if_neg h]; exact ih _ x hx' hxm

theorem first_node_fold_cases (mem_type : Memory) :
    ∀ (cfg : List (Int × Memory)) (acc : Int),
      cfg.foldl (fun mn nt => if nt.2 = mem_type then min mn nt.1 else mn) acc =
          acc ∨
      ∃ x ∈ cfg, x.2 = mem_type ∧
        cfg.foldl (fun mn nt => if nt.2 = mem_type then min mn nt.1 else mn) acc =
          x.1 := by
  intro cfg
  induction cfg with
  | nil => intro acc; left; rfl
  | cons hd tl ih =>
    intro acc
    simp only [List.foldl_cons]
    rcases Decidable.em (hd.2 = mem_type) with h | h
    · rw [if_pos h]
      rcases ih (min acc hd.1) with heq | ⟨x, hx, hxm, hfe⟩
      · rcases le_total acc hd.1 with hle | hle
        · left; rw [heq]; exact min_eq_left hle
        · right
          exact ⟨hd, List.mem_cons_self hd tl, h, by rw [heq]; exact min_eq_right hle⟩
      · right; exact ⟨x, List.mem_cons_of_mem hd hx, hxm, hfe⟩
    · rw [if_neg h]
      rcases ih acc with heq | ⟨x, hx, hxm, hfe⟩
      · left; exact heq
      · right; exact ⟨x, List.mem_cons_of_mem hd hx, hxm, hfe⟩

theorem any_node_fold_le_acc :
    ∀ (cfg : List (Int × Memory)) (acc : Int),
      cfg.foldl (fun mn nt => min mn nt.1) acc ≤ acc := by
  intro cfg
  induction cfg with
  | nil => intro acc; simp
  | cons hd tl ih =>
    intro acc
    simp only [List.foldl_cons]
    exact le_trans (ih _) (min_le_left _ _)

theorem any_node_fold_le_entry :
    ∀ (cfg : List (Int × Memory)) (acc : Int) (x : Int × Memory),
      x ∈ cfg → cfg.foldl (fun mn nt => min mn nt.1) acc ≤ x.1 := by
  intro cfg
  induction cfg with
  | nil => intro acc x hx; exact absurd hx (List.not_mem_nil x)
  | cons hd tl ih =>
    intro acc x hx
    simp only [List.foldl_cons]
    rcases List.mem_cons.mp hx with rfl | hx'
    · exact le_trans (any_node_fold_le_acc tl _) (min_le_right _ _)
    · exact ih _ x hx'

theorem any_node_fold_cases :
    ∀ (cfg : List (Int × Memory)) (acc : Int),
      cfg.foldl (fun mn nt => min mn nt.1) acc = acc ∨
      ∃ x ∈ cfg, cfg.foldl (fun mn nt => min mn nt.1) acc = x.1 := by
  intro cfg
  induction cfg with
  | nil => intro acc; left; rfl
  | cons hd tl ih =>
    intro acc
    simp only [List.foldl_cons]
    rcases ih (min acc hd.1) with heq | ⟨x, hx, hfe⟩
    · rcases le_total acc hd.1 with hle | hle
      · left; rw [heq]; exact min_eq_left hle
      · right
        exact ⟨hd, List.mem_cons_self hd tl, by rw [heq]; exact min_eq_right hle⟩
    · right; exact ⟨x, List.mem_cons_of_mem hd hx, hfe⟩

/-- C7 (counterexample): the claim says prediction on the empty map
fails with the configuration-missing error, and that on every non-empty
map `predict(RANDOM)` returns the smallest DRAM node.  In the code
`predict(RANDOM)` calls `get_first_node(Memory::DRAM)` directly, so on
the empty map — and on any map without a DRAM node, such as
`{0: HBM}` — it throws the "no node for this memory type" error, not the
configuration-missing one (which only the zero-argument
`get_first_node()` reached from the LINEAR fallback throws). -/
theorem C7_counterexample :
    predict [((0 : Int), Memory.HBM)] .RANDOM = .error .noNodeForType ∧
    predict ([] : List (Int × Memory)) .RANDOM = .error .noNodeForType ∧
    ¬ (predict ([] : List (Int × Memory)) .RANDOM = .error .noNodesAvailable) ∧
    predict ([] : List (Int × Memory)) .LINEAR = .error .noNodesAvailable := by
  decide

/-- C7 (amended): provided every configured node id is below `INT_MAX`:
`predict(LINEAR)` returns the smallest HBM node when one exists, falls
back to the smallest node id of any class on a non-empty map without
HBM, and fails with the configuration-missing error on the empty map;
`predict(RANDOM)` returns the smallest DRAM node when one exists and
otherwise — including on the empty map — fails with the
no-node-for-memory-type error. -/
theorem C7_predict_first_node (cfg : List (Int × Memory))
    (hlt : ∀ x ∈ cfg, x.1 < INT_MAX) :
    ((∃ x ∈ cfg, x.2 = Memory.HBM) →
      ∃ n, predict cfg .LINEAR = .ok n ∧ (n, Memory.HBM) ∈ cfg ∧
        ∀ x ∈ cfg, x.2 = Memory.HBM → n ≤ x.1) ∧
    ((¬ ∃ x ∈ cfg, x.2 = Memory.HBM) → cfg ≠ [] →
      ∃ n, predict cfg .LINEAR = .ok n ∧ (∃ m, (n, m) ∈ cfg) ∧
        ∀ x ∈ cfg, n ≤ x.1) ∧
    ((∃ x ∈ cfg, x.2 = Memory.DRAM) →
      ∃ n, predict cfg .RANDOM = .ok n ∧ (n, Memory.DRAM) ∈ cfg ∧
        ∀ x ∈ cfg, x.2 = Memory.DRAM → n ≤ x.1) ∧
    ((¬ ∃ x ∈ cfg, x.2 = Memory.DRAM) →
      predict cfg .RANDOM = .error .noNodeForType) ∧
    (cfg = [] → predict cfg .LINEAR = .error .noNodesAvailable) := by
  have hof : ∀ mem_type : Memory, (∃ x ∈ cfg, x.2 = mem_type) →
      ∃ n, get_first_node_of cfg mem_type = .ok n ∧ (n, mem_type) ∈ cfg ∧
        ∀ x ∈ cfg, x.2 = mem_type → n ≤ x.1 := by
    intro mem_type ⟨w, hw, hwm⟩
    set fold := cfg.foldl
      (fun mn nt => if nt.2 = mem_type then min mn nt.1 else mn) INT_MAX with hfold
    have hle : fold ≤ w.1 := first_node_fold_le_entry mem_type cfg INT_MAX w hw hwm
    have hne : fold ≠ INT_MAX := by
      have := hlt w hw
      omega
    refine ⟨fold, ?_, ?_, ?_⟩
    · simp only [get_first_node_of]
      rw [if_pos hne]
    · rcases first_node_fold_cases mem_type cfg INT_MAX with heq | ⟨x, hx, hxm, hfe⟩
      · exact absurd heq hne
      · rcases x with ⟨x1, x2⟩
        rw [hfold, hfe, ← hxm]
        exact hx
    · intro x hx hxm
      exact first_node_fold_le_entry mem_type cfg INT_MAX x hx hxm
  have hof_none : ∀ mem_type : Memory, (¬ ∃ x ∈ cfg, x.2 = mem_type) →
      get_first_node_of cfg mem_type = .error .noNodeForType := by
    intro mem_type hnone
    rcases first_node_fold_cases mem_type cfg INT_MAX with heq | ⟨x, hx, hxm, _⟩
    · simp only [get_first_node_of]
      rw [if_neg (not_not_intro heq)]
    · exact absurd ⟨x, hx, hxm⟩ hnone
  refine ⟨?_, ?_, ?_, ?_, ?_⟩
  · intro hhbm
    obtain ⟨n, hok, hmem, hmin⟩ := hof Memory.HBM hhbm
    refine ⟨n, ?_, hmem, hmin⟩
    unfold predict
    rw [if_pos rfl, hok]
  · intro hnohbm hne
    obtain ⟨w, hw⟩ := List.exists_mem_of_ne_nil cfg hne
    set fold := cfg.foldl (fun mn nt => min mn nt.1) INT_MAX with hfold
    have hle : fold ≤ w.1 := any_node_fold_le_entry cfg INT_MAX w hw
    refine ⟨fold, ?_, ?_, ?_⟩
    · unfold predict
      rw [if_pos rfl, hof_none Memory.HBM hnohbm]
      show get_first_node_any cfg = .ok fold
      simp only [get_first_node_any]
      rw [if_neg hne]
    · rcases any_node_fold_cases cfg INT_MAX with heq | ⟨x, hx, hfe⟩
      · have := hlt w hw
        omega
      · refine ⟨x.2, ?_⟩
        rw [hfold, hfe]
        rcases x with ⟨x1, x2⟩
        exact hx
    · intro x hx
      exact any_node_fold_le_entry cfg INT_MAX x hx
  · intro hdram
    obtain ⟨n, hok, hmem, hmin⟩ := hof Memory.DRAM hdram
    refine ⟨n, ?_, hmem, hmin⟩
    unfold predict
    rw [if_neg (by decide)]
    exact hok
  · intro hnodram
    unfold predict
    rw [if_neg (by decide)]
    exact hof_none Memory.DRAM hnodram
  · intro hnil
    subst hnil
    decide

/-- C7 (witness): the spec's scenario 6 — with nodes `{0: DRAM, 1: HBM}`
`predict(LINEAR) = 1` and `predict(RANDOM) = 0`, and with only
`{0: DRAM}` the LINEAR prediction falls back to node 0. -/
theorem C7_predict_first_node_witness :
    (∀ x ∈ [((0 : Int), Memory.DRAM), ((1 : Int), Memory.HBM)], x.1 < INT_MAX) ∧
    predict [((0 : Int), Memory.DRAM), ((1 : Int), Memory.HBM)] .LINEAR =
      .ok 1 ∧
    predict [((0 : Int), Memory.DRAM), ((1 : Int), Memory.HBM)] .RANDOM =
      .ok 0 ∧
    predict [((0 : Int), Memory.DRAM)] .LINEAR = .ok 0 ∧
    (∃ n, predict [((0 : Int), Memory.DRAM), ((1 : Int), Memory.HBM)] .LINEAR =
        .ok n ∧
      (n, Memory.HBM) ∈ [((0 : Int), Memory.DRAM), ((1 : Int), Memory.HBM)] ∧
      ∀ x ∈ [((0 : Int), Memory.DRAM), ((1 : Int), Memory.HBM)],
        x.2 = Memory.HBM → n ≤ x.1) :=
  ⟨by decide, by decide, by decide, by decide,
    (C7_predict_first_node
      [((0 : Int), Memory.DRAM), ((1 : Int), Memory.HBM)] (by decide)).1
      ⟨((1 : Int), Memory.HBM), by decide, rfl⟩⟩

/-! ## Lemmas about the `get_cpu_id` loop -/

theorem get_cpu_id_go_mono (range : List Subrange) :
    ∀ fuel fuel' (tid : Int) (i : Nat) (v : Int), fuel ≤ fuel' →
      get_cpu_id_go range fuel tid i = some v →
      get_cpu_id_go range fuel' tid i = some v := by
  intro fuel
  induction fuel with
  | zero =>
    intro fuel' tid i v _ h
    exact absurd h (by simp [get_cpu_id_go])
  | succ fuel ih =>
    intro fuel' tid i v hle h
    obtain ⟨fuel2, rfl⟩ : ∃ k, fuel' = k + 1 := ⟨fuel' - 1, by omega⟩
    simp only [get_cpu_id_go] at h ⊢
    by_cases hc : srLength (range.getD i ⟨0, 0, false⟩) ≤ tid
    · rw [if_pos hc] at h ⊢
      exact ih fuel2 _ _ v (by omega) h
    · rw [if_neg hc] at h ⊢
      exact h

theorem get_cpu_id_go_term (range : List Subrange)
    (hpos : ∀ sr ∈ range, 0 < srLength sr) :
    ∀ (n : Nat) (tid : Int) (i : Nat), tid.toNat ≤ n → i < range.length →
      ∃ v, get_cpu_id_go range (n + 1) tid i = some v := by
  intro n
  induction n using Nat.strong_induction_on with
  | _ n ihn =>
    intro tid i htid hi
    have hmem : range.getD i ⟨0, 0, false⟩ ∈ range := by
      rw [List.getD_eq_getElem range _ hi]
      exact List.getElem_mem hi
    by_cases hc : srLength (range.getD i ⟨0, 0, false⟩) ≤ tid
    · have hlen : 0 < srLength (range.getD i ⟨0, 0, false⟩) := hpos _ hmem
      have htid1 : 1 ≤ tid := le_trans hlen hc
      have hlt : (tid - srLength (range.getD i ⟨0, 0, false⟩)).toNat < n := by
        omega
      obtain ⟨m, rfl⟩ : ∃ m, n = m + 1 := ⟨n - 1, by omega⟩
      obtain ⟨v, hv⟩ := ihn m (by omega) (tid - srLength (range.getD i ⟨0, 0, false⟩))
        ((i + 1) % range.length) (by omega) (Nat.mod_lt _ (by omega))
      refine ⟨v, ?_⟩
      show get_cpu_id_go range (m + 1 + 1) tid i = some v
      simp only [get_cpu_id_go]
      rw [if_pos hc]
      exact hv
    · refine ⟨(if (range.getD i ⟨0, 0, false⟩).rev then
        srLength (range.getD i ⟨0, 0, false⟩) - 1 - tid else tid) +
          (range.getD i ⟨0, 0, false⟩).lo, ?_⟩
      simp only [get_cpu_id_go]
      rw [if_neg hc]

theorem suffix_total_nonneg (range : List Subrange)
    (hpos : ∀ sr ∈ range, 0 ≤ srLength sr) (i : Nat) :
    0 ≤ suffix_total range i := by
  apply List.sum_nonneg
  intro x hx
  obtain ⟨sr, hsr, rfl⟩ := List.mem_map.mp hx
  exact hpos sr (List.drop_subset i range hsr)

theorem suffix_total_zero (range : List Subrange) :
    suffix_total range 0 = rangeTotal range := by
  simp [suffix_total, rangeTotal]

theorem rangeTotal_ge_length (range : List Subrange)
    (hpos : ∀ sr ∈ range, 0 < srLength sr) :
    (range.length : Int) ≤ rangeTotal range := by
  induction range with
  | nil => simp [rangeTotal]
  | cons hd tl ih =>
    simp only [rangeTotal, List.map_cons, List.sum_cons, List.length_cons]
    have h1 : 0 < srLength hd := hpos hd (List.mem_cons_self hd tl)
    have h2 : (tl.length : Int) ≤ rangeTotal tl :=
      ih (fun sr h => hpos sr (List.mem_cons_of_mem _ h))
    rw [rangeTotal] at h2
    push_cast
    omega

theorem get_cpu_id_go_pass (range : List Subrange)
    (hpos : ∀ sr ∈ range, 0 ≤ srLength sr) :
    ∀ (k : Nat), 1 ≤ k → k ≤ range.length → ∀ (T : Int), 0 ≤ T → ∀ fuel,
      get_cpu_id_go range (fuel + k)
        (T + suffix_total range (range.length - k)) (range.length - k) =
      get_cpu_id_go range fuel T 0 := by
  intro k
  induction k with
  | zero => intro h1; exact absurd h1 (by omega)
  | succ k ih =>
    intro _ hk T hT fuel
    have hi : range.length - (k + 1) < range.length := by omega
    have hgetd : range.getD (range.length - (k + 1)) ⟨0, 0, false⟩ =
        range[range.length - (k + 1)] := List.getD_eq_getElem range _ hi
    have hdrop := List.drop_eq_getElem_cons hi
    have hsuffix : suffix_total range (range.length - (k + 1)) =
        srLength range[range.length - (k + 1)] +
          suffix_total range (range.length - (k + 1) + 1) := by
      simp only [suffix_total]
      rw [hdrop]
      simp only [List.map_cons, List.sum_cons]
    have hsnn : 0 ≤ suffix_total range (range.length - (k + 1) + 1) :=
      suffix_total_nonneg range hpos _
    have hstep : fuel + (k + 1) = (fuel + k) + 1 := by omega
    rw [hstep]
    simp only [get_cpu_id_go]
    rw [if_pos (by rw [hgetd, hsuffix]; omega)]
    rw [hgetd]
    have harg : T + suffix_total range (range.length - (k + 1)) -
        srLength range[range.length - (k + 1)] =
        T + suffix_total range (range.length - (k + 1) + 1) := by
      rw [hsuffix]; ring
    rw [harg]
    rcases Nat.eq_zero_or_pos k with rfl | hkpos
    · have hidx : range.length - (0 + 1) + 1 = range.length := by omega
      rw [hidx, Nat.mod_self]
      have hsuf0 : suffix_total range range.length = 0 := by
        rw [suffix_total, List.drop_length]
        rfl
      rw [hsuf0]
      simp only [add_zero]
    · have hidx : range.length - (k + 1) + 1 = range.length - k := by omega
      have hmod : (range.length - k) % range.length = range.length - k :=
        Nat.mod_eq_of_lt (by omega)
      rw [hidx, hmod]
      exact ih hkpos (by omega) T hT fuel

/-- Wrap-around of `get_cpu_id`: adding the total length of a range all
of whose sub-ranges are non-degenerate leaves the selected cpu id
unchanged; indices past the total length therefore wrap modulo it. -/
theorem get_cpu_id_wrap (range : List Subrange)
    (hpos : ∀ sr ∈ range, 0 < srLength sr) (hne : range ≠ [])
    (T : Int) (hT : 0 ≤ T) :
    get_cpu_id (T + rangeTotal range) range = get_cpu_id T range := by
  have hlenpos : 0 < range.length := List.length_pos.mpr hne
  have h0 : ∀ sr ∈ range, 0 ≤ srLength sr := fun sr h => le_of_lt (hpos sr h)
  have htotlen : (range.length : Int) ≤ rangeTotal range :=
    rangeTotal_ge_length range hpos
  have htot0 : 0 ≤ rangeTotal range :=
    le_trans (Int.natCast_nonneg range.length) htotlen
  have htoNat : (T + rangeTotal range).toNat =
      T.toNat + (rangeTotal range).toNat := Int.toNat_add hT htot0
  have hlen_le : range.length ≤ (rangeTotal range).toNat := by omega
  have hf1 : T.toNat + (rangeTotal range).toNat + 1 =
      (T.toNat + (rangeTotal range).toNat + 1 - range.length) + range.length := by
    omega
  have hpass := get_cpu_id_go_pass range h0 range.length (by omega) (le_refl _)
    T hT (T.toNat + (rangeTotal range).toNat + 1 - range.length)
  rw [Nat.sub_self, suffix_total_zero] at hpass
  obtain ⟨v, hv⟩ := get_cpu_id_go_term range hpos T.toNat T 0 (le_refl _) hlenpos
  have hvf : get_cpu_id_go range
      (T.toNat + (rangeTotal range).toNat + 1 - range.length) T 0 = some v :=
    get_cpu_id_go_mono range (T.toNat + 1) _ T 0 v (by omega) hv
  have hfuel : (T + rangeTotal range).toNat + 1 =
      (T.toNat + (rangeTotal range).toNat + 1 - range.length) +
        range.length := by omega
  calc get_cpu_id (T + rangeTotal range) range
      = get_cpu_id_go range ((T + rangeTotal range).toNat + 1)
          (T + rangeTotal range) 0 := rfl
    _ = get_cpu_id_go range
          ((T.toNat + (rangeTotal range).toNat + 1 - range.length) +
            range.length) (T + rangeTotal range) 0 := by rw [hfuel]
    _ = get_cpu_id_go range
          (T.toNat + (rangeTotal range).toNat + 1 - range.length) T 0 := hpass
    _ = some v := hvf
    _ = get_cpu_id_go range (T.toNat + 1) T 0 := hv.symm
    _ = get_cpu_id T range := rfl

/-! ## Lemmas about the thread manager's automatic pinning -/

theorem create_groups_fold (range : List Subrange) :
    ∀ (ws : List Nat) (st : TMState),
      (ws.foldl (create_thread_group range) st).next_core_index =
        st.next_core_index + ws.sum ∧
      (ws.foldl (create_thread_group range) st).pinnings =
        st.pinnings ++ expected_pinnings range st.next_core_index ws := by
  intro ws
  induction ws with
  | nil => intro st; simp [expected_pinnings]
  | cons w ws ih =>
    intro st
    simp only [List.foldl_cons]
    obtain ⟨h1, h2⟩ := ih (create_thread_group range st w)
    constructor
    · rw [h1]
      simp only [create_thread_group, List.sum_cons]
      omega
    · rw [h2]
      simp only [create_thread_group, expected_pinnings, List.append_assoc,
        List.singleton_append]

theorem expected_pinnings_get (range : List Subrange) :
    ∀ (ws : List Nat) (base k : Nat), k < ws.length →
      (expected_pinnings range base ws).get? k =
        some ((List.range (ws.getD k 0)).map
          (fun i => get_cpu_id (((base + (ws.take k).sum : Nat) : Int) + i)
            range)) := by
  intro ws
  induction ws with
  | nil => intro base k hk; exact absurd hk (by simp)
  | cons w ws ih =>
    intro base k hk
    match k with
    | 0 =>
      simp [expected_pinnings]
    | k + 1 =>
      have hk' : k < ws.length := by simpa using hk
      simp only [expected_pinnings, List.get?_cons_succ]
      rw [ih (base + w) k hk']
      simp only [List.getD_cons_succ, List.take_succ_cons, List.sum_cons]
      have harith : base + w + (ws.take k).sum = base + (w + (ws.take k).sum) := by
        omega
      rw [harith]

/-- C8: under the automatic pinning policy, after creating groups with
worker counts `ws` the manager's cursor equals the sum of all worker
counts (it advances by exactly each group's count, independent of the
range), worker `i` of the `k`-th created group is pinned to
`get_cpu_id(Σ_{j<k} W_j + i, range)`, and `get_cpu_id` wraps indices
past the range's total length modulo that length (adding the total
length leaves the cpu id unchanged). -/
theorem C8_automatic_pinning (range : List Subrange) (ws : List Nat) :
    ((create_groups range ws).next_core_index = ws.sum) ∧
    (∀ k, k < ws.length →
      (create_groups range ws).pinnings.get? k =
        some ((List.range (ws.getD k 0)).map
          (fun i => get_cpu_id ((((ws.take k).sum : Nat) : Int) + i) range))) ∧
    ((∀ sr ∈ range, 0 < srLength sr) → range ≠ [] →
      ∀ T : Int, 0 ≤ T →
        get_cpu_id (T + rangeTotal range) range = get_cpu_id T range) := by
  obtain ⟨h1, h2⟩ := create_groups_fold range ws ⟨0, []⟩
  refine ⟨?_, ?_, ?_⟩
  · show (List.foldl (create_thread_group range) ⟨0, []⟩ ws).next_core_index = _
    rw [h1]
    simp
  · intro k hk
    show (List.foldl (create_thread_group range) ⟨0, []⟩ ws).pinnings.get? k = _
    rw [h2]
    simp only [List.nil_append]
    have := expected_pinnings_get range ws 0 k hk
    simpa using this
  · intro hpos hne T hT
    exact get_cpu_id_wrap range hpos hne T hT

/-- C8 (witness): a two-sub-range configuration (the second reversed)
with groups of 2 and 3 workers: pinnings `[[0, 1], [2, 3, 11]]`, cursor
5, and wrap-around `get_cpu_id(1 + 6) = get_cpu_id(1)`. -/
theorem C8_automatic_pinning_witness :
    (∀ sr ∈ [(⟨0, 4, false⟩ : Subrange), ⟨10, 12, true⟩], 0 < srLength sr) ∧
    ([(⟨0, 4, false⟩ : Subrange), ⟨10, 12, true⟩] ≠ []) ∧
    ((create_groups [(⟨0, 4, false⟩ : Subrange), ⟨10, 12, true⟩]
      [2, 3]).next_core_index = 5) ∧
    ((create_groups [(⟨0, 4, false⟩ : Subrange), ⟨10, 12, true⟩] [2, 3]).pinnings =
      [[some 0, some 1], [some 2, some 3, some 11]]) ∧
    get_cpu_id (1 + rangeTotal [(⟨0, 4, false⟩ : Subrange), ⟨10, 12, true⟩])
        [(⟨0, 4, false⟩ : Subrange), ⟨10, 12, true⟩] =
      get_cpu_id 1 [(⟨0, 4, false⟩ : Subrange), ⟨10, 12, true⟩] :=
  ⟨by decide, by decide, by decide, by decide,
    (C8_automatic_pinning [(⟨0, 4, false⟩ : Subrange), ⟨10, 12, true⟩]
      [2, 3]).2.2 (by decide) (by decide) 1 (by decide)⟩

/-- C9 (counterexample): the claim says any second start attempt — in
particular `run_async` after `run` — fails with the AlreadyStarted
error.  `run()` however releases the barrier without setting
`start_pistol_fired`, so a subsequent `run_async()` passes the flag
check and dies inside `std::promise::set_value` with a `future_error`
(promise already satisfied), not the `AlreadyStarted` runtime error. -/
theorem C9_counterexample :
    group_run ⟨false, false⟩ = .ok ⟨true, false⟩ ∧
    group_run_async ⟨true, false⟩ = .error .promiseAlreadySatisfied ∧
    ¬ (group_run_async ⟨true, false⟩ = .error .alreadyStarted) := by
  decide

/-- C9 (amended): the barrier is released at most once — any second
start attempt on a group whose promise is already satisfied fails — and
the first `run_async()` releases the barrier and returns the join
handle; a second `run_async()` fails with AlreadyStarted, but a start
attempt after `run()` fails with the promise's already-satisfied
`future_error` instead, because `run()` does not set
`start_pistol_fired`. -/
theorem C9_start_once (st : GroupStartState) :
    (group_run_async ⟨false, false⟩ = .ok ⟨true, true⟩) ∧
    (group_run_async ⟨true, true⟩ = .error .alreadyStarted) ∧
    (group_run ⟨false, false⟩ = .ok ⟨true, false⟩) ∧
    (group_run_async ⟨true, false⟩ = .error .promiseAlreadySatisfied) ∧
    (st.pistol_set = true →
      (∃ e, group_run_async st = .error e) ∧ (∃ e, group_run st = .error e)) ∧
    (∀ st', group_run_async st = .ok st' → st'.pistol_set = true ∧
      st'.start_pistol_fired = true) := by
  refine ⟨by decide, by decide, by decide, by decide, ?_, ?_⟩
  · intro hset
    constructor
    · rcases hflag : st.start_pistol_fired with hf | hf
      · exact ⟨.promiseAlreadySatisfied, by
          simp [group_run_async, hflag, hset]⟩
      · exact ⟨.alreadyStarted, by simp [group_run_async, hflag]⟩
    · exact ⟨.promiseAlreadySatisfied, by simp [group_run, hset]⟩
  · intro st' h
    rw [group_run_async] at h
    by_cases hflag : st.start_pistol_fired
    · rw [if_pos hflag] at h
      exact Except.noConfusion h
    · rw [if_neg hflag] at h
      by_cases hset : st.pistol_set
      · rw [if_pos hset] at h
        exact Except.noConfusion h
      · rw [if_neg hset] at h
        have := Except.ok.inj h
        rw [← this]
        exact ⟨rfl, rfl⟩

/-- C9 (witness): the amended statement instantiated at the state after
a `run_async` (both the promise and the flag set); both restart paths
fail there. -/
theorem C9_start_once_witness :
    ((⟨true, true⟩ : GroupStartState).pistol_set = true) ∧
    ((∃ e, group_run_async ⟨true, true⟩ = .error e) ∧
      (∃ e, group_run ⟨true, true⟩ = .error e)) :=
  ⟨rfl, (C9_start_once ⟨true, true⟩).2.2.2.2.1 rfl⟩

/-! ## Lemmas about the driver checksum -/

theorem buildMap_eq_mem :
    ∀ (pk : List Nat) (m : Nat → Bool) (x : Nat),
      (pk.foldl (fun m k => fun y => if y = k then true else m y) m) x = true ↔
        (m x = true ∨ x ∈ pk) := by
  intro pk
  induction pk with
  | nil => intro m x; simp
  | cons k pk ih =>
    intro m x
    simp only [List.foldl_cons]
    rw [ih]
    by_cases hx : x = k
    · subst hx
      simp
    · simp [hx]

theorem foldl_add_map (f : Nat → Int) :
    ∀ (l : List Nat) (acc : Int),
      l.foldl (fun a i => a + f i) acc = acc + (l.map f).sum := by
  intro l
  induction l with
  | nil => intro acc; simp
  | cons x l ih =>
    intro acc
    simp only [List.foldl_cons, List.map_cons, List.sum_cons, ih]
    ring

/-- C1: the driver's reference checksum agrees with the specification's
`safe_sum = Σ_i (R.a[i] * R.b[i]) * [R.fk[i] ∈ S.pk]` (the
`unordered_map` built from `S.pk` answers exactly membership in `S.pk`,
absent keys default-inserting `false`), and `main` exits 0 precisely
when the pipeline's `final_sum` equals this checksum, 1 otherwise. -/
theorem C1_checksum_exit (final_sum : Int) (r : TableR) (s : TableS) :
    checksum r s = spec_safe_sum r s ∧
    (main_exit final_sum r s = 0 ↔ final_sum = spec_safe_sum r s) ∧
    (main_exit final_sum r s = 0 ∨ main_exit final_sum r s = 1) := by
  have hmap : ∀ x, buildMap s.pk x = true ↔ x ∈ s.pk := by
    intro x
    rw [buildMap, buildMap_eq_mem s.pk (fun _ => false) x]
    simp
  have hsum : checksum r s = spec_safe_sum r s := by
    rw [checksum, spec_safe_sum]
    rw [foldl_add_map
      (fun i => r.a.getD i 0 * r.b.getD i 0 *
        (if buildMap s.pk (r.fk.getD i 0) then 1 else 0))
      (List.range r.a.length) 0]
    rw [zero_add]
    congr 1
    apply List.map_congr_left
    intro i _
    congr 1
    rcases Decidable.em (r.fk.getD i 0 ∈ s.pk) with h | h
    · rw [if_pos ((hmap _).mpr h), if_pos h]
    · rw [if_neg (fun hb => h ((hmap _).mp hb)), if_neg h]
  refine ⟨hsum, ?_, ?_⟩
  · rw [main_exit, hsum]
    by_cases h : final_sum = spec_safe_sum r s
    · rw [if_pos h]
      simp [h]
    · rw [if_neg h]
      simp [h]
  · rw [main_exit]
    by_cases h : final_sum = checksum r s
    · left; rw [if_pos h]
    · right; rw [if_neg h]

end Spec2Proof
